import Mathlib

/-!
Verification of the text-layout and cursor/selection engine of
`kivy/uix/textinput.py` (class `TextInput`).

Texts are embedded as `List Char`, the visual-line model as a list of line
strings together with a parallel list of flag bitmasks (`Nat`).  The external
text measurer is an abstract parameter `measure : List Char → Nat` returning a
non-negative pixel width; the width constraint is an `Int` (it is
`self.width - padding_left - padding_right` in the source and may be
negative).
-/

namespace KivyTI

/-- Constant `FL_IS_LINEBREAK` from the source (line 222). -/
def FL_IS_LINEBREAK : Nat := 0x01

/-- Constant `FL_IS_WORDBREAK` from the source (line 223). -/
def FL_IS_WORDBREAK : Nat := 0x02

/-- Constant `FL_IS_NEWLINE = FL_IS_LINEBREAK | FL_IS_WORDBREAK` (line 224). -/
def FL_IS_NEWLINE : Nat := FL_IS_LINEBREAK ||| FL_IS_WORDBREAK

/-- Test of the `FL_IS_LINEBREAK` bit, as in `flag & FL_IS_LINEBREAK` in the
source. -/
def isLB (f : Nat) : Bool := f &&& FL_IS_LINEBREAK ≠ 0

/-- The one extra character consumed by a `FL_IS_LINEBREAK`-flagged line. -/
def lbAdd (f : Nat) : Nat := if isLB f then 1 else 0

/-- Modelled from the spec: the helper `boundary` imported from `kivy.utils`
(not under `src/`) clamps a value into `[lo, hi]`; the spec describes every
use of it as clamping an index into its valid range. -/
def boundary (v lo hi : Int) : Int := min (max v lo) hi

/-- Embedding of `TextInput.cursor_index` (lines 684-711): flat index of a `(col, row)`
cursor.  The python loop runs over `zip(range(min(cursor_row, len(lines))),
lines, flags)`; the trailing `flags[cursor_row]` lookup raises `IndexError`
for an out-of-range row, which the surrounding `try` turns into `0`. -/
def cursor_index (lines : List (List Char)) (flags : List Nat)
    (cursor : Nat × Nat) : Nat :=
  if lines = [] then 0
  else
    match flags.get? cursor.2 with
    | none => 0
    | some f =>
      ((lines.zip flags).take (min cursor.2 lines.length)).foldl
        (fun acc lf => acc + lf.1.length + lbAdd lf.2) cursor.1 + lbAdd f

/-- The row walk of `TextInput.get_cursor_from_index` (lines 739-748),
over the zipped `(line, flag)` rows; `i` is the running flat offset of the
current row's first character and `row` the current row number.  On the
models produced by `_split_smart` the two lists have equal length, so the
zip is faithful to the python indexing `flags[row]`. -/
def getCursorLoop : List (List Char × Nat) → Nat → Nat → Nat → Nat × Nat
  | [], _, index, row => (index, row - 1)
  | (line, flag) :: rest, i, index, row =>
    if isLB flag then
      if index ≤ i + line.length + 1 then (index - (i + 1), row)
      else getCursorLoop rest (i + line.length + 1) index (row + 1)
    else
      if index ≤ i + line.length then (index - i, row)
      else getCursorLoop rest (i + line.length) index (row + 1)

/-- Embedding of `TextInput.get_cursor_from_index` (lines 728-748): `(col, row)` of a flat
index; the index is first clamped into `[0, text_len]`. -/
def get_cursor_from_index (text_len : Nat) (lines : List (List Char))
    (flags : List Nat) (index : Int) : Nat × Nat :=
  let i2 := boundary index 0 (text_len : Int)
  if i2 ≤ 0 then (0, 0)
  else if lines = [] then (0, 0)
  else getCursorLoop (lines.zip flags) 0 i2.toNat 0

/-- Selection state of the widget: `_selection_from`, `_selection_to`,
`_selection_finished`. -/
structure SelSt where
  selection_from : Nat
  selection_to : Nat
  selection_finished : Bool
  deriving DecidableEq, Repr

/-- Embedding of `TextInput.select_text` (lines 750-769) as a state transition.  The
returned `Bool` is true when the call raises (`end < start`); the raise
happens before any assignment, so the state is returned unchanged. -/
def select_text (text_len : Nat) (σ : SelSt) (start stop : Int) :
    SelSt × Bool :=
  if stop < start then (σ, true)
  else
    (⟨(boundary start 0 (text_len : Int)).toNat,
      (boundary stop 0 (text_len : Int)).toNat, true⟩, false)

/-- Embedding of `TextInput.replace_text` (lines 809-852), restricted to its text
computation: `lenght = abs(start_index - end_index)` and
`tmp = text[:start_index] + substring + text[start_index + lenght:]`.
The returned `Bool` records whether the text changed (the early
`return` happens exactly when `tmp == current`; python then returns `None`
on both paths, see the C7 analysis). -/
def replace_text (current substring : List Char)
    (start_index end_index : Nat) : List Char × Bool :=
  let lenght := max start_index end_index - min start_index end_index
  let tmp := current.take start_index ++ substring ++
    current.drop (start_index + lenght)
  if tmp = current then (current, false) else (tmp, true)

/-- Embedding of `TextInput._set_cursor` (lines 2777-2794), restricted to the cursor
validation: `none` when `_lines` is empty (the early return that only
triggers a refresh), otherwise the clamped `(col, row)` candidate that is
committed. -/
def set_cursor (lines : List (List Char)) (pos : Int × Int) :
    Option (Nat × Nat) :=
  if lines = [] then none
  else
    let cr := (boundary pos.2 0 ((lines.length : Int) - 1)).toNat
    let cc := (boundary pos.1 0 ((lines.getD cr []).length : Int)).toNat
    some (cc, cr)

/-- The delimiter set `_tokenize_delimiters = u' .,:;!?\r\t'` (line 2504). -/
def isDelim (c : Char) : Bool :=
  c = ' ' ∨ c = '.' ∨ c = ',' ∨ c = ':' ∨ c = ';' ∨ c = '!' ∨ c = '?' ∨
  c = '\r' ∨ c = '\t'

/-- Loop of `TextInput._tokenize` (lines 2506-2526).  `pos` is the python
`index`, `prev` the `prev_char` (`none` stands for the initial `''`, for
which the `index > 0` guard makes the delimiter test fail), and `cur` the
pending slice `text[old_index:index]`. -/
def tokGo : List Char → Nat → Option Char → List Char →
    List (List Char × Nat)
  | [], pos, _, cur => [(cur, pos)]
  | c :: rest, pos, prev, cur =>
    if isDelim c then tokGo rest (pos + 1) (some c) (cur ++ [c])
    else if c = '\n' then
      (if cur ≠ [] then [(cur, pos)] else []) ++ [(['\n'], pos)] ++
        tokGo rest (pos + 1) (some c) []
    else if (prev.map isDelim).getD false then
      (if cur ≠ [] then [(cur, pos)] else []) ++
        tokGo rest (pos + 1) (some c) [c]
    else tokGo rest (pos + 1) (some c) (cur ++ [c])

/-- Embedding of `TextInput._tokenize` (lines 2506-2526): the list of `(word,
word_end_index)` pairs the generator yields. -/
def tokenize (text : List Char) : List (List Char × Nat) :=
  tokGo text 0 none []

/-- Python `''.join(line)` on the pending word list of `_split_smart`. -/
def joinL : List (List Char) → List Char
  | [] => []
  | w :: ws => w ++ joinL ws

/-- Python `text.split(u'\n')` (line 2538). -/
def pySplitNl : List Char → List (List Char)
  | [] => [[]]
  | c :: rest =>
    if c = '\n' then [] :: pySplitNl rest
    else
      match pySplitNl rest with
      | [] => [[c]]
      | l :: ls => (c :: l) :: ls

/-- The inner character scan of the word-split loop of `_split_smart`
(lines 2580-2589): returns `(split_pos, split_width)`, the longest prefix of
`word` whose cumulative per-character measured width stays `≤ width` and
that cumulative width.  The python accumulator form
`split_width + cw > width` is carried here as the shrinking budget
`width - split_width`. -/
def findSplit (measure : List Char → Nat) (width : Int) :
    List Char → Nat × Int
  | [] => (0, 0)
  | c :: rest =>
    let cw : Int := measure [c]
    if cw > width then (0, 0)
    else
      let pr := findSplit measure (width - cw) rest
      (pr.1 + 1, pr.2 + cw)

/-- State of the word-wrap loop of `_split_smart` (lines 2543-2549):
running line width `x`, pending flags for the next flushed line, pending
word list `line`, the last `line_index`, and the three output lists. -/
structure WrapSt where
  x : Int
  flags : Nat
  line : List (List Char)
  line_index : Nat
  lines : List (List Char)
  lines_flags : List Nat
  lines_idx : List Nat
  deriving DecidableEq, Repr

/-- Flushing the current line (lines 2567-2573): push `''.join(line)` with
the pending flags and `line_index`, then reset `flags`, `line` and `x`. -/
def flushLine (st : WrapSt) : WrapSt :=
  { st with
    lines := st.lines ++ [joinL st.line]
    lines_flags := st.lines_flags ++ [st.flags]
    lines_idx := st.lines_idx ++ [st.line_index]
    flags := 0
    line := []
    x := 0 }

theorem findSplit_fst_zero (measure : List Char → Nat) (width : Int) :
    ∀ word : List Char, (findSplit measure width word).1 = 0 →
      (findSplit measure width word).2 = 0 := by
  intro word
  match word with
  | [] => intro _; rfl
  | c :: rest =>
    simp only [findSplit]
    split
    · intro _; rfl
    · intro h; simp at h

theorem findSplit_fst_le (measure : List Char → Nat) :
    ∀ (width : Int) (word : List Char),
      (findSplit measure width word).1 ≤ word.length := by
  intro width word
  induction word generalizing width with
  | nil => simp [findSplit]
  | cons c rest ih =>
    simp only [findSplit]
    split
    · simp
    · simpa using Nat.succ_le_succ (ih _)

/-- The word-split loop (lines 2577-2599).  Each pass cuts
`word[:split_pos]` off as its own output line (recording
`line_index = word_end_index - split_pos`), sets the pending flags to
`FL_IS_WORDBREAK`, and keeps going while the remaining width `w` exceeds
`width`; if nothing fits (`split_width == split_pos == 0`) it gives up.
Both exits perform the trailing `x = w; line.append(word);
line_index = word_end_index` of lines 2600-2602.  The structural `fuel`
argument is instantiated with `word.length` at the call site; since each
pass removes at least one character, the zero-fuel case is only reached
with an empty `word`, for which the loop performs the same exit. -/
def splitLoop (measure : List Char → Nat) (width : Int) :
    Nat → WrapSt → List Char → Nat → Int → WrapSt
  | 0, st, word, wend, w =>
    { st with x := w, line := st.line ++ [word], line_index := wend }
  | fuel + 1, st, word, wend, w =>
    if w > width then
      if (findSplit measure width word).1 = 0 ∧
          (findSplit measure width word).2 = 0 then
        { st with x := w, line := st.line ++ [word], line_index := wend }
      else
        splitLoop measure width fuel
          { st with
            lines := st.lines ++ [word.take (findSplit measure width word).1]
            lines_flags := st.lines_flags ++ [st.flags]
            lines_idx :=
              st.lines_idx ++ [wend - (findSplit measure width word).1]
            flags := FL_IS_WORDBREAK
            line_index := wend - (findSplit measure width word).1 }
          (word.drop (findSplit measure width word).1) wend
          (w - (findSplit measure width word).2)
    else { st with x := w, line := st.line ++ [word], line_index := wend }

/-- Second half of the word-wrap loop body of `_split_smart`
(lines 2574-2606), run on the state left by the conditional flush. -/
def stepTokenAfter (measure : List Char → Nat) (width : Int) (st : WrapSt)
    (tok : List Char × Nat) : WrapSt :=
  if tok.1 = ['\n'] then { st with flags := st.flags ||| FL_IS_LINEBREAK }
  else if 1 ≤ width ∧ (measure tok.1 : Int) > width then
    splitLoop measure width tok.1.length st tok.1 tok.2 (measure tok.1)
  else
    { st with x := st.x + (measure tok.1 : Int), line := st.line ++ [tok.1],
              line_index := tok.2 }

/-- One token of the word-wrap loop body of `_split_smart`
(lines 2558-2606): the conditional flush of lines 2567-2573 followed by the
newline / word-split / accumulate cases. -/
def stepToken (measure : List Char → Nat) (width : Int) (st : WrapSt)
    (tok : List Char × Nat) : WrapSt :=
  stepTokenAfter measure width
    (if (st.x + (measure tok.1 : Int) > width ∧ st.line ≠ []) ∨
        tok.1 = ['\n'] then flushLine st else st) tok

/-- The word-wrap path of `_split_smart` (lines 2542-2612), starting from
the `flags` parameter `φ`, folding the loop body over the tokens and
performing the final `if line or flags & FL_IS_LINEBREAK` flush. -/
def splitSmartWrap (measure : List Char → Nat) (width : Int)
    (text : List Char) (φ : Nat) :
    List (List Char) × List Nat × List Nat :=
  let st0 : WrapSt := ⟨0, φ, [], 0, [], [], []⟩
  let st := (tokenize text).foldl (stepToken measure width) st0
  let st := if st.line ≠ [] ∨ isLB st.flags then flushLine st else st
  (st.lines, st.lines_flags, st.lines_idx)

/-- Embedding of `TextInput._split_smart` (lines 2528-2612): on `not multiline or not
do_wrap` split on `'\n'` only, flagging every line but the first with
`FL_IS_LINEBREAK` and returning an empty offset table; otherwise word-wrap
under the pixel `width` constraint. -/
def split_smart (measure : List Char → Nat) (width : Int)
    (multiline do_wrap : Bool) (text : List Char) (φ : Nat) :
    List (List Char) × List Nat × List Nat :=
  if ¬multiline ∨ ¬do_wrap then
    let lines := pySplitNl text
    (lines, 0 :: List.replicate (lines.length - 1) FL_IS_LINEBREAK, [])
  else splitSmartWrap measure width text φ

/-- Binary-search loop of python's `bisect.bisect_left`.  The structural
`fuel` is instantiated with `a.length`, an upper bound on the number of
iterations (`hi - lo` shrinks by at least one per pass), so the zero-fuel
case is only reached once `lo ≥ hi`, where the loop exits with `lo`
anyway. -/
def bisectLoop (a : List Nat) (x : Nat) : Nat → Nat → Nat → Nat
  | 0, lo, _ => lo
  | fuel + 1, lo, hi =>
    if lo < hi then
      if a.getD ((lo + hi) / 2) 0 < x then
        bisectLoop a x fuel ((lo + hi) / 2 + 1) hi
      else bisectLoop a x fuel lo ((lo + hi) / 2)
    else lo

/-- Python `bisect_left(a, x)` as used at line 1969. -/
def bisect_left (a : List Nat) (x : Nat) : Nat :=
  bisectLoop a x a.length 0 a.length

/-- The line-model state of the widget that `_refresh_text` reads and
writes: `_lines`, `_lines_flags`, `_lines_indexes`, `_rendered_text`. -/
structure TISt where
  lines : List (List Char)
  flags : List Nat
  indexes : List Nat
  rendered : List Char
  deriving DecidableEq, Repr

/-- Embedding of `_refresh_text(text, requestor="property")` (lines 2026-2032, 2053):
full from-scratch reflow of the whole text. -/
def refresh_property (measure : List Char → Nat) (width : Int)
    (multiline do_wrap : Bool) (text : List Char) : TISt :=
  let r := split_smart measure width multiline do_wrap text 0
  ⟨r.1, r.2.1, r.2.2, text⟩

/-- Embedding of `_refresh_text(text, requestor="textinput")` (lines 1956-2032, 2053):
the incremental path.  When at least two `_lines_indexes` entries exist and
`text` starts with `_rendered_text`, the line containing the old end is
located by `bisect_left`; everything before the line preceding it is kept
and only the tail is re-split (seeded with that line's flags).  The
`difflib.SequenceMatcher` reconciliation of lines 1997-2024 is modelled by
its intended net effect, `self._lines = self._lines[:replace_from_line] +
_lines`, matching the assignments the opcodes perform; `_lines_flags` and
`_lines_indexes` are updated by direct slice assignment in the source
(lines 1988-1991) exactly as here. -/
def refresh_textinput (measure : List Char → Nat) (width : Int)
    (multiline do_wrap : Bool) (st : TISt) (text : List Char) : TISt :=
  let pre :=
    if 1 < st.indexes.length ∧ st.rendered <+: text then
      let insertion_point := bisect_left st.indexes st.rendered.length
      if 1 < insertion_point then
        let last_untouched_line := insertion_point - 2
        let sti0 := st.indexes.getD last_untouched_line 0
        let replace_from_line := last_untouched_line + 1
        let φ := st.flags.getD replace_from_line 0
        -- `text[start_text_index] == "\n"`; in-range under the branch
        -- conditions, so the `getD` default is never consulted
        let sti := if text.getD sti0 ' ' = '\n' then sti0 + 1 else sti0
        (replace_from_line, sti, φ)
      else (0, 0, 0)
    else (0, 0, 0)
  let replace_from_line := pre.1
  let sti := pre.2.1
  let φ := pre.2.2
  let r := split_smart measure width multiline do_wrap (text.drop sti) φ
  ⟨st.lines.take replace_from_line ++ r.1,
   st.flags.take replace_from_line ++ r.2.1,
   st.indexes.take replace_from_line ++ r.2.2.map (sti + ·),
   text⟩

/-- Upward loop of `TextInput._expand_rows` (lines 1002-1003), over the
REVERSED flags list the source builds at line 1001. -/
def expandUp (flagsRev : List Nat) : Nat → Nat
  | 0 => 0
  | r + 1 =>
    if flagsRev.getD r 0 &&& FL_IS_NEWLINE ≠ 0 then r + 1
    else expandUp flagsRev r

/-- Downward loop of `TextInput._expand_rows` (lines 1005-1006), likewise
over the reversed flags list.  The structural `fuel` is instantiated with
`rmax`, an upper bound on the iterations (`rto` grows toward `rmax`), so
the zero-fuel case is only reached once the guard is false, where the loop
exits with `rto` anyway. -/
def expandDown (flagsRev : List Nat) (rmax : Nat) : Nat → Nat → Nat
  | 0, rto => rto
  | fuel + 1, rto =>
    if 0 < rto ∧ rto < rmax ∧ flagsRev.getD (rto - 1) 0 &&& FL_IS_NEWLINE = 0
    then expandDown flagsRev rmax fuel (rto + 1)
    else rto

/-- Embedding of `TextInput._expand_rows` (lines 997-1007). -/
def expand_rows (lines : List (List Char)) (flags : List Nat)
    (rfrom rto0 : Nat) : Nat × Nat :=
  let rto := if rto0 = rfrom then rfrom + 1 else rto0
  let flagsRev := flags.reverse
  let rfrom' := expandUp flagsRev rfrom
  let rmax := lines.length - 1
  let rto' := expandDown flagsRev rmax rmax rto
  (max 0 rfrom', min rmax rto')

/-- Embedding of `TextInput._expand_range` (lines 987-995), with `ito` given explicitly
(the source defaults it to `ifrom`). -/
def expand_range (text_len : Nat) (lines : List (List Char))
    (flags : List Nat) (ifrom ito : Int) : Nat × Nat :=
  let rfrom := (get_cursor_from_index text_len lines flags ifrom).2
  let rc := get_cursor_from_index text_len lines flags ito
  let rr := expand_rows lines flags rfrom (if rc.1 ≠ 0 then rc.2 + 1 else rc.2)
  (cursor_index lines flags (0, rr.1), cursor_index lines flags (0, rr.2))

/-! ### Specification-side definitions used to state the properties -/

/-- Reconstruction of the flat text from a line model under the convention
the source actually uses: a `FL_IS_LINEBREAK` flag on a line records the
explicit newline immediately PRECEDING that line. -/
def reconstruct : List (List Char) → List Nat → List Char
  | l :: ls, f :: fs =>
    (if isLB f then ['\n'] else []) ++ l ++ reconstruct ls fs
  | _, _ => []

/-- Reconstruction following the spec's words (§3 invariant together with
the glossary reading of `LINEBREAK` as "line ends at an explicit newline"):
a `'\n'` is inserted AFTER each flagged line. -/
def reconstructAfterSpec : List (List Char) → List Nat → List Char
  | l :: ls, f :: fs =>
    l ++ (if isLB f then ['\n'] else []) ++ reconstructAfterSpec ls fs
  | _, _ => []

/-- Number of flat characters consumed by a row: its own length plus one
for a preceding explicit newline. -/
def segSum (rows : List (List Char × Nat)) : Nat :=
  (rows.map (fun lf => lf.1.length + lbAdd lf.2)).sum

/-- Flat index of the cursor `(col, row)` of a line model, under the
source's flag convention: the lengths of all preceding rows, one newline
per `FL_IS_LINEBREAK` flag on rows `1..row` (each flag records the newline
before its row, so the target row's own flag counts too), plus `col`. -/
def idxOf : List (List Char × Nat) → Nat → Nat → Nat
  | [], col, _ => col
  | lf :: _, col, 0 => lbAdd lf.2 + col
  | lf :: rest, col, r + 1 => lbAdd lf.2 + lf.1.length + idxOf rest col r

/-- Joining in the `'\n'.join` style, used to state the no-wrap characterization. -/
def joinNl : List (List Char) → List Char
  | [] => []
  | [l] => l
  | l :: ls => l ++ '\n' :: joinNl ls

/-- Cumulative per-character measured width of a string, the width notion
the word-split loop of `_split_smart` works with. -/
def charSum (measure : List Char → Nat) (s : List Char) : Nat :=
  (s.map (fun c => measure [c])).sum

/-- The newline contributed by a pending `FL_IS_LINEBREAK` flag. -/
def nlIf (f : Nat) : List Char := if isLB f then ['\n'] else []

/-- The flat text accounted for by a wrap-loop state: the flushed lines,
the newline recorded in the pending flags, and the pending words. -/
def wrapV (st : WrapSt) : List Char :=
  reconstruct st.lines st.lines_flags ++ nlIf st.flags ++ joinL st.line

/-! ### Basic lemmas -/

theorem joinL_append (a b : List (List Char)) :
    joinL (a ++ b) = joinL a ++ joinL b := by
  induction a with
  | nil => simp [joinL]
  | cons x xs ih => simp [joinL, ih]

theorem reconstruct_append (l : List Char) (f : Nat) :
    ∀ ls fs, ls.length = fs.length →
      reconstruct (ls ++ [l]) (fs ++ [f]) =
        reconstruct ls fs ++ nlIf f ++ l := by
  intro ls
  induction ls with
  | nil =>
    intro fs h
    cases fs with
    | nil => simp [reconstruct, nlIf]
    | cons g gs => simp at h
  | cons x xs ih =>
    intro fs h
    cases fs with
    | nil => simp at h
    | cons g gs =>
      simp only [List.cons_append, reconstruct, nlIf, List.append_eq]
      rw [ih gs (by simpa using h)]
      simp [nlIf]

theorem reconstruct_length :
    ∀ ls fs, ls.length = fs.length →
      (reconstruct ls fs).length = segSum (ls.zip fs) := by
  intro ls
  induction ls with
  | nil =>
    intro fs h
    cases fs with
    | nil => simp [reconstruct, segSum]
    | cons g gs => simp at h
  | cons x xs ih =>
    intro fs h
    cases fs with
    | nil => simp at h
    | cons g gs =>
      simp only [reconstruct, List.zip_cons_cons, segSum, List.map_cons,
        List.sum_cons]
      rw [List.length_append, List.length_append]
      have := ih gs (by simpa using h)
      simp only [segSum] at this
      rw [this]
      cases hb : isLB g <;> simp [lbAdd, hb] <;> omega

theorem pySplitNl_ne_nil (t : List Char) : pySplitNl t ≠ [] := by
  cases t with
  | nil => simp [pySplitNl]
  | cons c rest =>
    simp only [pySplitNl]
    split
    · simp
    · split
      · simp
      · simp

theorem joinNl_pySplitNl (t : List Char) : joinNl (pySplitNl t) = t := by
  induction t with
  | nil => simp [pySplitNl, joinNl]
  | cons c rest ih =>
    simp only [pySplitNl]
    split
    · rename_i hc
      subst hc
      cases h : pySplitNl rest with
      | nil => exact absurd h (pySplitNl_ne_nil rest)
      | cons l ls =>
        rw [h] at ih
        simp only [joinNl]
        cases ls <;> simp_all [joinNl]
    · cases h : pySplitNl rest with
      | nil => exact absurd h (pySplitNl_ne_nil rest)
      | cons l ls =>
        rw [h] at ih
        cases ls with
        | nil => simp_all [joinNl]
        | cons l2 ls2 => simp_all [joinNl]

theorem pySplitNl_no_nl (t : List Char) :
    ∀ l ∈ pySplitNl t, '\n' ∉ l := by
  induction t with
  | nil => simp [pySplitNl]
  | cons c rest ih =>
    simp only [pySplitNl]
    split
    · intro l hl
      rcases List.mem_cons.mp hl with h | h
      · simp [h]
      · exact ih l h
    · rename_i hc
      cases h : pySplitNl rest with
      | nil => exact absurd h (pySplitNl_ne_nil rest)
      | cons x xs =>
        intro l hl
        rcases List.mem_cons.mp hl with h1 | h1
        · subst h1
          intro hmem
          rcases List.mem_cons.mp hmem with h2 | h2
          · exact hc h2.symm
          · exact ih x (h ▸ List.mem_cons_self x xs) h2
        · exact ih l (h ▸ List.mem_cons_of_mem x h1)

/-- Concatenation with a leading newline before every element. -/
def nlConcat : List (List Char) → List Char
  | [] => []
  | l :: ls => '\n' :: l ++ nlConcat ls

theorem reconstruct_replicate_lb :
    ∀ ls : List (List Char),
      reconstruct ls (List.replicate ls.length FL_IS_LINEBREAK) =
        nlConcat ls := by
  intro ls
  induction ls with
  | nil => simp [reconstruct, nlConcat]
  | cons l rest ih =>
    simp only [List.length_cons, List.replicate_succ, reconstruct, nlConcat,
      ih]
    norm_num [isLB, FL_IS_LINEBREAK]

theorem joinNl_cons_eq (l : List Char) :
    ∀ ls, joinNl (l :: ls) = l ++ nlConcat ls := by
  intro ls
  induction ls generalizing l with
  | nil => simp [joinNl, nlConcat]
  | cons l2 rest ih =>
    rw [show joinNl (l :: l2 :: rest) = l ++ '\n' :: joinNl (l2 :: rest)
      from rfl]
    rw [ih l2]
    simp [nlConcat]

/-- The line model the no-wrap branch produces reconstructs by joining with
newlines: each line after the first carries the newline that separated it
from its predecessor. -/
theorem reconstruct_nowrap_flags :
    ∀ ls : List (List Char), ls ≠ [] →
      reconstruct ls (0 :: List.replicate (ls.length - 1) FL_IS_LINEBREAK) =
        joinNl ls := by
  intro ls h
  cases ls with
  | nil => simp at h
  | cons l rest =>
    simp only [List.length_cons, Nat.add_sub_cancel, reconstruct,
      joinNl_cons_eq, reconstruct_replicate_lb]
    norm_num [isLB]

/-! ### Tokenizer lemmas -/

theorem optYield_join (cur : List Char) (pos : Nat)
    (L : List (List Char × Nat)) :
    joinL (((if cur ≠ [] then [(cur, pos)] else []) ++ L).map Prod.fst) =
      cur ++ joinL (L.map Prod.fst) := by
  by_cases h : cur = [] <;> simp [h, joinL]

theorem tokGo_join :
    ∀ (rest : List Char) (pos : Nat) (prev : Option Char) (cur : List Char),
      joinL ((tokGo rest pos prev cur).map Prod.fst) = cur ++ rest := by
  intro rest
  induction rest with
  | nil => intro pos prev cur; simp [tokGo, joinL]
  | cons c rs ih =>
    intro pos prev cur
    simp only [tokGo]
    split
    · rw [ih]; simp
    · split
      · rename_i hc
        subst hc
        by_cases hcur : cur = [] <;>
          simp [hcur, List.map_append, joinL_append, joinL, ih]
      · split
        · by_cases hcur : cur = [] <;>
            simp [hcur, List.map_append, joinL_append, joinL, ih]
        · rw [ih]; simp

/-- Concatenating what `tokenize` yields gives back exactly the input text. -/
theorem tokenize_join (text : List Char) :
    joinL ((tokenize text).map Prod.fst) = text := by
  simpa using tokGo_join text 0 none []

/-- The final yield of `_tokenize` always exists and is never the newline
token: every `'\n'` in the input is emitted as its own token and excluded
from the pending slice. -/
theorem tokGo_last :
    ∀ (rest : List Char) (pos : Nat) (prev : Option Char) (cur : List Char),
      '\n' ∉ cur →
      ∃ ts t, tokGo rest pos prev cur = ts ++ [t] ∧ t.1 ≠ ['\n'] := by
  intro rest
  induction rest with
  | nil =>
    intro pos prev cur hcur
    refine ⟨[], (cur, pos), rfl, fun h => hcur ?_⟩
    have hc : cur = ['\n'] := h
    rw [hc]
    simp
  | cons c rs ih =>
    intro pos prev cur hcur
    simp only [tokGo]
    split
    · rename_i hd
      refine ih (pos + 1) (some c) (cur ++ [c]) ?_
      intro hmem
      rcases List.mem_append.mp hmem with h | h
      · exact hcur h
      · simp at h
        subst h
        simp [isDelim] at hd
    · split
      · rcases ih (pos + 1) (some c) [] (by simp) with ⟨ts, t, heq, ht⟩
        exact ⟨(if cur ≠ [] then [(cur, pos)] else []) ++ [(['\n'], pos)] ++
          ts, t, by rw [heq]; simp, ht⟩
      · split
        · rename_i hnl _
          have hc : '\n' ∉ [c] := by
            simp only [List.mem_singleton]
            intro h
            exact hnl h.symm
          rcases ih (pos + 1) (some c) [c] hc with ⟨ts, t, heq, ht⟩
          exact ⟨(if cur ≠ [] then [(cur, pos)] else []) ++ ts, t, by
            rw [heq]; simp, ht⟩
        · rename_i hnl _
          refine ih (pos + 1) (some c) (cur ++ [c]) ?_
          intro hmem
          rcases List.mem_append.mp hmem with h | h
          · exact hcur h
          · simp at h
            exact hnl h.symm

/-! ### findSplit lemmas -/

theorem findSplit_snd_nonneg (measure : List Char → Nat) :
    ∀ (width : Int) (word : List Char), 0 ≤ (findSplit measure width word).2 := by
  intro width word
  induction word generalizing width with
  | nil => simp [findSplit]
  | cons c rest ih =>
    simp only [findSplit]
    split
    · simp
    · have := ih (width - (measure [c] : Int))
      positivity

theorem findSplit_snd_le (measure : List Char → Nat) :
    ∀ (width : Int) (word : List Char), 0 ≤ width →
      (findSplit measure width word).2 ≤ width := by
  intro width word
  induction word generalizing width with
  | nil => intro h; simpa [findSplit] using h
  | cons c rest ih =>
    intro h
    simp only [findSplit]
    split
    · exact h
    · rename_i hcw
      push_neg at hcw
      have := ih (width - (measure [c] : Int)) (by omega)
      omega

theorem findSplit_take (measure : List Char → Nat) :
    ∀ (width : Int) (word : List Char),
      (charSum measure (word.take (findSplit measure width word).1) : Int) =
        (findSplit measure width word).2 := by
  intro width word
  induction word generalizing width with
  | nil => simp [findSplit, charSum]
  | cons c rest ih =>
    simp only [findSplit]
    split
    · simp [charSum]
    · have := ih (width - (measure [c] : Int))
      simp only [List.take_succ_cons, charSum, List.map_cons, List.sum_cons]
      simp only [charSum] at this
      push_cast
      push_cast at this
      omega

/-! ### splitLoop lemmas -/

theorem nlIf_wb : nlIf FL_IS_WORDBREAK = [] := by decide

theorem headD_append_singleton (l : List Nat) (x d : Nat) :
    (l ++ [x]).headD d = l.headD x := by
  cases l <;> rfl

theorem splitLoop_main (measure : List Char → Nat) (width : Int) :
    ∀ (fuel : Nat) (word : List Char) (st : WrapSt) (wend : Nat) (w : Int),
      st.lines_flags.length = st.lines.length →
      ((splitLoop measure width fuel st word wend w).lines_flags.length =
        (splitLoop measure width fuel st word wend w).lines.length) ∧
      (st.line = [] → wrapV (splitLoop measure width fuel st word wend w) =
        wrapV st ++ word) ∧
      (∃ t, (splitLoop measure width fuel st word wend w).line =
        st.line ++ [t]) ∧
      (0 ≤ w → 1 ≤ width →
        0 ≤ (splitLoop measure width fuel st word wend w).x) ∧
      ((splitLoop measure width fuel st word wend w).lines_flags.headD
          (splitLoop measure width fuel st word wend w).flags =
        st.lines_flags.headD st.flags) := by
  intro fuel
  induction fuel with
  | zero =>
    intro word st wend w hlen
    rw [splitLoop]
    refine ⟨hlen, ?_, ⟨word, rfl⟩, fun h _ => h, rfl⟩
    intro hline
    simp [wrapV, hline, joinL]
  | succ n ih =>
    intro word st wend w hlen
    rw [splitLoop]
    split
    · rename_i hwgt
      split
      · refine ⟨hlen, ?_, ⟨word, rfl⟩, fun h _ => h, rfl⟩
        intro hline
        simp [wrapV, hline, joinL]
      · rename_i h0
        set pr := findSplit measure width word with hpr
        set st' : WrapSt :=
          { st with
            lines := st.lines ++ [word.take pr.1]
            lines_flags := st.lines_flags ++ [st.flags]
            lines_idx := st.lines_idx ++ [wend - pr.1]
            flags := FL_IS_WORDBREAK
            line_index := wend - pr.1 } with hst'
        have hlen' : st'.lines_flags.length = st'.lines.length := by
          simp [hst', hlen]
        rcases ih (word.drop pr.1) st' wend (w - pr.2) hlen' with
          ⟨c1, c2, c3, c4, c5⟩
        refine ⟨c1, ?_, ?_, ?_, ?_⟩
        · intro hline
          have hline' : st'.line = [] := by simp [hst', hline]
          rw [c2 hline']
          have hV : wrapV st' = wrapV st ++ word.take pr.1 := by
            simp only [wrapV, hst']
            rw [reconstruct_append _ _ _ _ hlen.symm]
            rw [nlIf_wb]
            simp [hline, joinL]
          rw [hV, List.append_assoc, List.take_append_drop]
        · rcases c3 with ⟨t, ht⟩
          exact ⟨t, by rw [ht]⟩
        · intro hw0 hwid
          refine c4 ?_ hwid
          have hle2 : pr.2 ≤ width :=
            hpr ▸ findSplit_snd_le measure width word (by omega)
          omega
        · rw [c5]
          simp only [hst']
          exact headD_append_singleton st.lines_flags st.flags FL_IS_WORDBREAK
    · refine ⟨hlen, ?_, ⟨word, rfl⟩, fun h _ => h, rfl⟩
      intro hline
      simp [wrapV, hline, joinL]

/-! ### stepToken lemmas -/

theorem nlIf_zero : nlIf 0 = [] := by decide

theorem nlIf_or_one : nlIf (0 ||| FL_IS_LINEBREAK) = ['\n'] := by decide

theorem joinL_single (w : List Char) : joinL [w] = w := by simp [joinL]

theorem headD_of_ne_nil (l : List Nat) (a b : Nat) (h : l ≠ []) :
    l.headD a = l.headD b := by
  cases l with
  | nil => exact absurd rfl h
  | cons x xs => rfl

/-- The loop invariant of the word-wrap fold, relative to the initial
`flags` parameter `φ`: the two output lists stay parallel, the running
width is non-negative, and the first flag ever flushed is `φ`. -/
def StepInv (φ : Nat) (st : WrapSt) : Prop :=
  st.lines_flags.length = st.lines.length ∧ 0 ≤ st.x ∧
  st.lines_flags.headD st.flags = φ

theorem flush_wrapV (st : WrapSt)
    (h : st.lines_flags.length = st.lines.length) :
    wrapV (flushLine st) = wrapV st := by
  simp only [wrapV, flushLine]
  rw [reconstruct_append _ _ _ _ h.symm, nlIf_zero]
  simp [joinL]

theorem stepTokenAfter_main (measure : List Char → Nat) (width : Int)
    (φ : Nat) (tok : List Char × Nat) (st : WrapSt)
    (hlen : st.lines_flags.length = st.lines.length)
    (hx : 0 ≤ st.x)
    (hhf : st.lines_flags.headD st.flags = φ)
    (hsplit : 1 ≤ width → (measure tok.1 : Int) > width → st.line = [])
    (hnl : tok.1 = ['\n'] → st.line = [] ∧ st.flags = 0 ∧
      st.lines_flags ≠ []) :
    StepInv φ (stepTokenAfter measure width st tok) ∧
    wrapV (stepTokenAfter measure width st tok) = wrapV st ++ tok.1 ∧
    (tok.1 ≠ ['\n'] → (stepTokenAfter measure width st tok).line ≠ []) := by
  rw [stepTokenAfter]
  split
  · rename_i hisnl
    obtain ⟨hl0, hf0, hlf⟩ := hnl hisnl
    refine ⟨⟨hlen, hx, ?_⟩, ?_, fun h => absurd hisnl h⟩
    · rw [← hhf]
      exact headD_of_ne_nil st.lines_flags _ _ hlf
    · simp only [wrapV, hl0, joinL, hf0, hisnl]
      rw [nlIf_or_one, nlIf_zero]
      simp
  · split
    · rename_i hisnl hw
      have hl0 : st.line = [] := hsplit hw.1 hw.2
      rcases splitLoop_main measure width tok.1.length tok.1 st tok.2
        (measure tok.1) hlen with ⟨c1, c2, c3, c4, c5⟩
      refine ⟨⟨c1, c4 (by positivity) hw.1, by rw [c5]; exact hhf⟩,
        c2 hl0, fun _ => ?_⟩
      rcases c3 with ⟨t, ht⟩
      rw [ht, hl0]
      simp
    · refine ⟨⟨hlen, by positivity, hhf⟩, ?_, fun _ => by simp⟩
      simp only [wrapV, joinL_append, joinL_single]
      simp

theorem stepToken_main (measure : List Char → Nat) (width : Int) (φ : Nat)
    (st : WrapSt) (tok : List Char × Nat) (h : StepInv φ st) :
    StepInv φ (stepToken measure width st tok) ∧
    wrapV (stepToken measure width st tok) = wrapV st ++ tok.1 ∧
    (tok.1 ≠ ['\n'] → (stepToken measure width st tok).line ≠ []) := by
  obtain ⟨hlen, hx, hhf⟩ := h
  rw [stepToken]
  split
  · rename_i hcond
    have hres := stepTokenAfter_main measure width φ tok (flushLine st)
      (by simp [flushLine, hlen]) (by simp [flushLine])
      (by
        simp only [flushLine]
        rw [headD_append_singleton]
        exact hhf)
      (fun _ _ => by simp [flushLine])
      (fun _ => by simp [flushLine])
    rw [flush_wrapV st hlen] at hres
    exact hres
  · rename_i hcond
    push_neg at hcond
    refine stepTokenAfter_main measure width φ tok st hlen hx hhf ?_ ?_
    · intro _ hw2
      exact hcond.1 (by omega)
    · intro hisnl
      exact absurd hisnl hcond.2

/-! ### split_smart model theorems -/

theorem foldl_main (measure : List Char → Nat) (width : Int) (φ : Nat) :
    ∀ (toks : List (List Char × Nat)) (st : WrapSt), StepInv φ st →
      StepInv φ (toks.foldl (stepToken measure width) st) ∧
      wrapV (toks.foldl (stepToken measure width) st) =
        wrapV st ++ joinL (toks.map Prod.fst) := by
  intro toks
  induction toks with
  | nil => intro st h; simpa [joinL] using h
  | cons tok rest ih =>
    intro st h
    rcases stepToken_main measure width φ st tok h with ⟨h1, h2, _⟩
    rcases ih (stepToken measure width st tok) h1 with ⟨g1, g2⟩
    refine ⟨g1, ?_⟩
    simp only [List.foldl_cons] at g2 ⊢
    rw [g2, h2, List.map_cons]
    rw [show joinL (tok.1 :: rest.map Prod.fst) =
      tok.1 ++ joinL (rest.map Prod.fst) from rfl]
    simp

theorem splitSmartWrap_model (measure : List Char → Nat) (width : Int)
    (text : List Char) (φ : Nat) :
    (splitSmartWrap measure width text φ).2.1.length =
      (splitSmartWrap measure width text φ).1.length ∧
    reconstruct (splitSmartWrap measure width text φ).1
      (splitSmartWrap measure width text φ).2.1 = nlIf φ ++ text ∧
    (splitSmartWrap measure width text φ).1 ≠ [] ∧
    (splitSmartWrap measure width text φ).2.1.headD 0 = φ := by
  have hinv0 : StepInv φ (⟨0, φ, [], 0, [], [], []⟩ : WrapSt) :=
    ⟨rfl, le_refl 0, rfl⟩
  rcases foldl_main measure width φ (tokenize text)
    (⟨0, φ, [], 0, [], [], []⟩ : WrapSt) hinv0 with ⟨hinv, hV⟩
  set st := (tokenize text).foldl (stepToken measure width)
    (⟨0, φ, [], 0, [], [], []⟩ : WrapSt) with hst
  have hV' : wrapV st = nlIf φ ++ text := by
    rw [hV]
    rw [tokenize_join]
    simp [wrapV, reconstruct, joinL]
  -- the final pending line is never empty: the last token is not a newline
  have hlast : st.line ≠ [] := by
    rcases tokGo_last text 0 none [] (by simp) with ⟨ts, t, heq, ht⟩
    have htok : tokenize text = ts ++ [t] := heq
    rw [hst, htok, List.foldl_append, List.foldl_cons, List.foldl_nil]
    have hinv2 := (foldl_main measure width φ ts
      (⟨0, φ, [], 0, [], [], []⟩ : WrapSt) hinv0).1
    exact (stepToken_main measure width φ _ t hinv2).2.2 ht
  obtain ⟨hlen, hx, hhf⟩ := hinv
  have hcond : st.line ≠ [] ∨ isLB st.flags := Or.inl hlast
  simp only [splitSmartWrap, ← hst, if_pos hcond]
  refine ⟨by simp [flushLine, hlen], ?_, by simp [flushLine], ?_⟩
  · have := flush_wrapV st hlen
    simp only [wrapV, flushLine, nlIf_zero, joinL] at this
    simp only [flushLine]
    rw [← hV']
    simpa [wrapV] using this
  · simp only [flushLine]
    rw [headD_append_singleton]
    exact hhf

/-- The four structural invariants of every line model `_split_smart`
computes from scratch (initial `flags = 0`), on either path: the flag list
is parallel to the line list, reconstructing with a newline before every
`FL_IS_LINEBREAK`-flagged line gives back the input text, at least one line
exists, and the first line is unflagged. -/
theorem split_smart_model (measure : List Char → Nat) (width : Int)
    (multiline do_wrap : Bool) (text : List Char) :
    (split_smart measure width multiline do_wrap text 0).2.1.length =
      (split_smart measure width multiline do_wrap text 0).1.length ∧
    reconstruct (split_smart measure width multiline do_wrap text 0).1
      (split_smart measure width multiline do_wrap text 0).2.1 = text ∧
    (split_smart measure width multiline do_wrap text 0).1 ≠ [] ∧
    (split_smart measure width multiline do_wrap text 0).2.1.headD 0 = 0 := by
  rw [split_smart]
  split
  · have hne := pySplitNl_ne_nil text
    refine ⟨?_, ?_, hne, rfl⟩
    · simp only [List.length_cons, List.length_replicate]
      cases h : pySplitNl text with
      | nil => exact absurd h hne
      | cons l ls => simp [h]
    · rw [reconstruct_nowrap_flags _ hne, joinNl_pySplitNl]
  · rcases splitSmartWrap_model measure width text 0 with ⟨h1, h2, h3, h4⟩
    rw [nlIf_zero] at h2
    simp only [List.nil_append] at h2
    exact ⟨h1, h2, h3, h4⟩

/-! ### Coordinate mapper lemmas -/

theorem lbAdd_le_one (f : Nat) : lbAdd f ≤ 1 := by
  unfold lbAdd
  split <;> omega

theorem zip_get? {α β : Type} :
    ∀ (as : List α) (bs : List β) (i : Nat) (a : α) (b : β),
      as.get? i = some a → bs.get? i = some b →
      (as.zip bs).get? i = some (a, b) := by
  intro as
  induction as with
  | nil => intro bs i a b h; simp at h
  | cons x xs ih =>
    intro bs i a b ha hb
    cases bs with
    | nil => simp at hb
    | cons y ys =>
      cases i with
      | zero =>
        simp only [List.get?] at ha hb
        injection ha with ha
        injection hb with hb
        simp [List.zip_cons_cons, ha, hb]
      | succ k =>
        simp only [List.get?] at ha hb
        simpa [List.zip_cons_cons, List.get?] using ih ys k a b ha hb

theorem foldl_seg :
    ∀ (L : List (List Char × Nat)) (a : Nat),
      L.foldl (fun acc lf => acc + lf.1.length + lbAdd lf.2) a =
        a + segSum L := by
  intro L
  induction L with
  | nil => intro a; simp [segSum]
  | cons lf rest ih =>
    intro a
    simp only [List.foldl_cons, ih, segSum, List.map_cons, List.sum_cons]
    simp only [segSum] at ih ⊢
    omega

theorem take_seg_idxOf :
    ∀ (rows : List (List Char × Nat)) (row col : Nat)
      (lf : List Char × Nat), rows.get? row = some lf →
      col + segSum (rows.take row) + lbAdd lf.2 = idxOf rows col row := by
  intro rows
  induction rows with
  | nil => intro row col lf h; simp at h
  | cons r rs ih =>
    intro row col lf h
    cases row with
    | zero =>
      simp only [List.get?] at h
      injection h with h
      subst h
      simp only [List.take_zero, segSum, List.map_nil, List.sum_nil, idxOf]
      omega
    | succ k =>
      simp only [List.get?] at h
      have := ih k col lf h
      simp only [List.take_succ_cons, segSum, List.map_cons, List.sum_cons,
        idxOf]
      simp only [segSum] at this
      omega

/-- What `cursor_index` computes exactly: lengths of the preceding rows plus one
newline per `FL_IS_LINEBREAK` flag among rows `1..row` — the target row's
own flag included, since that flag records the newline *before* the row. -/
theorem cursor_index_idxOf (lines : List (List Char)) (flags : List Nat)
    (col row : Nat) (hrow : row < lines.length)
    (hlen : flags.length = lines.length) :
    cursor_index lines flags (col, row) =
      idxOf (lines.zip flags) col row := by
  have hne : lines ≠ [] := by
    intro h
    rw [h] at hrow
    simp at hrow
  have hrowf : row < flags.length := hlen ▸ hrow
  have hfl : flags.get? row = some (flags.get ⟨row, hrowf⟩) :=
    List.get?_eq_get hrowf
  have hln : lines.get? row = some (lines.get ⟨row, hrow⟩) :=
    List.get?_eq_get hrow
  have hz := zip_get? lines flags row _ _ hln hfl
  rw [cursor_index]
  rw [if_neg hne]
  simp only [hfl]
  rw [min_eq_left (le_of_lt hrow)]
  rw [foldl_seg]
  have := take_seg_idxOf (lines.zip flags) row col _ hz
  simpa using this

theorem getCursorLoop_A :
    ∀ (rows : List (List Char × Nat)) (i index row0 : Nat),
      i < index → index ≤ i + segSum rows →
      ∃ col r lf, rows.get? r = some lf ∧
        getCursorLoop rows i index row0 = (col, row0 + r) ∧
        col ≤ lf.1.length ∧
        i + idxOf rows col r = index := by
  intro rows
  induction rows with
  | nil =>
    intro i index row0 h1 h2
    simp only [segSum, List.map_nil, List.sum_nil, Nat.add_zero] at h2
    omega
  | cons lf0 rest ih =>
    intro i index row0 h1 h2
    obtain ⟨l, f⟩ := lf0
    have hseg : segSum ((l, f) :: rest) =
        l.length + lbAdd f + segSum rest := by
      simp [segSum]
    have hlb := lbAdd_le_one f
    rw [getCursorLoop]
    by_cases hf : isLB f
    · rw [if_pos hf]
      have hlb1 : lbAdd f = 1 := by simp [lbAdd, hf]
      split
    --
      · rename_i hc
        refine ⟨index - (i + 1), 0, (l, f), rfl, rfl,
          by show index - (i + 1) ≤ l.length; omega, ?_⟩
        rw [show idxOf ((l, f) :: rest) (index - (i + 1)) 0 =
          lbAdd f + (index - (i + 1)) from rfl, hlb1]
        omega
      · rename_i hc
        push_neg at hc
        rcases ih (i + l.length + 1) index (row0 + 1) hc (by omega) with
          ⟨col, r, lf, hget, heq, hcol, hidx⟩
        refine ⟨col, r + 1, lf, by simpa using hget, ?_, hcol, ?_⟩
        · rw [heq]
          congr 1
          omega
        · rw [show idxOf ((l, f) :: rest) col (r + 1) =
            lbAdd f + l.length + idxOf rest col r from rfl, hlb1]
          omega
    · rw [if_neg hf]
      have hlb0 : lbAdd f = 0 := by simp [lbAdd, hf]
      split
      · rename_i hc
        refine ⟨index - i, 0, (l, f), rfl, rfl,
          by show index - i ≤ l.length; omega, ?_⟩
        rw [show idxOf ((l, f) :: rest) (index - i) 0 =
          lbAdd f + (index - i) from rfl, hlb0]
        omega
      · rename_i hc
        push_neg at hc
        rcases ih (i + l.length) index (row0 + 1) hc (by omega) with
          ⟨col, r, lf, hget, heq, hcol, hidx⟩
        refine ⟨col, r + 1, lf, by simpa using hget, ?_, hcol, ?_⟩
        · rw [heq]
          congr 1
          omega
        · rw [show idxOf ((l, f) :: rest) col (r + 1) =
            lbAdd f + l.length + idxOf rest col r from rfl, hlb0]
          omega

theorem idxOf_pos :
    ∀ (rows : List (List Char × Nat)) (col r : Nat) (lf : List Char × Nat),
      rows.get? r = some lf → (1 ≤ col ∨ isLB lf.2) →
      1 ≤ idxOf rows col r := by
  intro rows
  induction rows with
  | nil => intro col r lf h; simp at h
  | cons x xs ih =>
    intro col r lf hget hg
    obtain ⟨l, f⟩ := x
    cases r with
    | zero =>
      simp only [List.get?] at hget
      injection hget with hget
      rw [show idxOf ((l, f) :: xs) col 0 = lbAdd f + col from rfl]
      rcases hg with h | h
      · omega
      · rw [← hget] at h
        have : lbAdd f = 1 := by simp [lbAdd]; exact h
        omega
    | succ k =>
      simp only [List.get?] at hget
      have := ih col k lf hget hg
      rw [show idxOf ((l, f) :: xs) col (k + 1) =
        lbAdd f + l.length + idxOf xs col k from rfl]
      omega

theorem idxOf_le_segSum :
    ∀ (rows : List (List Char × Nat)) (col r : Nat) (lf : List Char × Nat),
      rows.get? r = some lf → col ≤ lf.1.length →
      idxOf rows col r ≤ segSum rows := by
  intro rows
  induction rows with
  | nil => intro col r lf h; simp at h
  | cons x xs ih =>
    intro col r lf hget hcol
    obtain ⟨l, f⟩ := x
    have hseg : segSum ((l, f) :: xs) =
        l.length + lbAdd f + segSum xs := by
      simp [segSum]
    cases r with
    | zero =>
      simp only [List.get?] at hget
      injection hget with hget
      have hcol' : col ≤ l.length := by rw [← hget] at hcol; exact hcol
      rw [show idxOf ((l, f) :: xs) col 0 = lbAdd f + col from rfl]
      omega
    | succ k =>
      simp only [List.get?] at hget
      have := ih col k lf hget hcol
      rw [show idxOf ((l, f) :: xs) col (k + 1) =
        lbAdd f + l.length + idxOf xs col k from rfl]
      omega

theorem getCursorLoop_B :
    ∀ (rows : List (List Char × Nat)) (i row0 col r : Nat)
      (lf : List Char × Nat),
      rows.get? r = some lf → col ≤ lf.1.length →
      (1 ≤ col ∨ r = 0 ∨ isLB lf.2) →
      getCursorLoop rows i (i + idxOf rows col r) row0 = (col, row0 + r) := by
  intro rows
  induction rows with
  | nil => intro i row0 col r lf h; simp at h
  | cons lf0 rest ih =>
    intro i row0 col r lf hget hcol hg
    obtain ⟨l, f⟩ := lf0
    cases r with
    | zero =>
      simp only [List.get?] at hget
      injection hget with hget
      have hcol' : col ≤ l.length := by rw [← hget] at hcol; exact hcol
      have hidx0 : idxOf ((l, f) :: rest) col 0 = lbAdd f + col := rfl
      rw [getCursorLoop]
      by_cases hf : isLB f
      · have hlb1 : lbAdd f = 1 := by simp [lbAdd, hf]
        rw [if_pos hf]
        rw [if_pos (by rw [hidx0, hlb1]; omega)]
        rw [hidx0, hlb1]
        congr 1
        omega
      · have hlb0 : lbAdd f = 0 := by simp [lbAdd, hf]
        rw [if_neg hf]
        rw [if_pos (by rw [hidx0, hlb0]; omega)]
        rw [hidx0, hlb0]
        congr 1
        omega
    | succ k =>
      simp only [List.get?] at hget
      have hg' : 1 ≤ col ∨ isLB lf.2 := by
        rcases hg with h | h | h
        · exact Or.inl h
        · simp at h
        · exact Or.inr h
      have hpos := idxOf_pos rest col k lf hget hg'
      have hihg : 1 ≤ col ∨ k = 0 ∨ isLB lf.2 := by
        rcases hg' with h | h
        · exact Or.inl h
        · exact Or.inr (Or.inr h)
      have hidxS : idxOf ((l, f) :: rest) col (k + 1) =
        lbAdd f + l.length + idxOf rest col k := rfl
      rw [getCursorLoop]
      by_cases hf : isLB f
      · have hlb1 : lbAdd f = 1 := by simp [lbAdd, hf]
        rw [if_pos hf]
        rw [if_neg (by rw [hidxS, hlb1]; omega)]
        have := ih (i + l.length + 1) (row0 + 1) col k lf hget hcol hihg
        rw [show i + idxOf ((l, f) :: rest) col (k + 1) =
          i + l.length + 1 + idxOf rest col k by rw [hidxS, hlb1]; omega]
        rw [this]
        congr 1
        omega
      · have hlb0 : lbAdd f = 0 := by simp [lbAdd, hf]
        rw [if_neg hf]
        rw [if_neg (by rw [hidxS, hlb0]; omega)]
        have := ih (i + l.length) (row0 + 1) col k lf hget hcol hihg
        rw [show i + idxOf ((l, f) :: rest) col (k + 1) =
          i + l.length + idxOf rest col k by rw [hidxS, hlb0]; omega]
        rw [this]
        congr 1
        omega

theorem boundary_of_le (ix tl : Nat) (h : ix ≤ tl) :
    boundary (ix : Int) 0 (tl : Int) = ix := by
  simp only [boundary]
  omega

theorem cursor_index_zero (lines : List (List Char)) (flags : List Nat)
    (hne : lines ≠ []) (hfne : flags ≠ [])
    (h0 : lbAdd (flags.headD 0) = 0) :
    cursor_index lines flags (0, 0) = 0 := by
  cases lines with
  | nil => exact absurd rfl hne
  | cons l ls =>
    cases flags with
    | nil => exact absurd rfl hfne
    | cons f fs =>
      simp only [List.headD] at h0
      simp only [cursor_index, List.get?]
      rw [if_neg (by simp)]
      simp [h0]

/-- Model-level direction A of the coordinate round trip: on any line model
whose rows sum to `segSum`, have parallel flags, are non-empty and whose
first row is unflagged, index → cursor → index is the identity on
`[0, segSum]`. -/
theorem roundA_model (lines : List (List Char)) (flags : List Nat)
    (hlen : flags.length = lines.length) (hne : lines ≠ [])
    (h0 : lbAdd (flags.headD 0) = 0) (tl : Nat)
    (htl : tl = segSum (lines.zip flags)) (ix : Nat) (hix : ix ≤ tl) :
    cursor_index lines flags
      (get_cursor_from_index tl lines flags (ix : Int)) = ix := by
  have hfne : flags ≠ [] := by
    intro h
    rw [h] at hlen
    simp at hlen
    exact hne (List.length_eq_zero.mp hlen.symm)
  simp only [get_cursor_from_index]
  rw [boundary_of_le ix tl hix]
  by_cases hz : ix = 0
  · subst hz
    rw [if_pos (by omega)]
    exact cursor_index_zero lines flags hne hfne h0
  · rw [if_neg (by omega), if_neg hne]
    have hxt : (ix : Int).toNat = ix := Int.toNat_natCast ix
    rw [hxt]
    rcases getCursorLoop_A (lines.zip flags) 0 ix 0 (by omega)
      (by omega) with ⟨col, r, lf, hget, heq, hcol, hidx⟩
    rw [heq]
    have hr : r < lines.length := by
      rcases List.get?_eq_some.mp hget with ⟨hb, _⟩
      rw [List.length_zip, hlen, min_self] at hb
      exact hb
    rw [Nat.zero_add]
    rw [cursor_index_idxOf lines flags col r hr hlen]
    omega

/-- Model-level direction B of the coordinate round trip: cursor → index →
cursor is the identity for every in-bounds cursor that is not at column 0
of a wrapped continuation row. -/
theorem roundB_model (lines : List (List Char)) (flags : List Nat)
    (hlen : flags.length = lines.length) (hne : lines ≠ [])
    (h0 : lbAdd (flags.headD 0) = 0) (tl : Nat)
    (htl : tl = segSum (lines.zip flags)) (col row : Nat)
    (lf : List Char × Nat) (hget : (lines.zip flags).get? row = some lf)
    (hcol : col ≤ lf.1.length)
    (hguard : 1 ≤ col ∨ row = 0 ∨ isLB lf.2) :
    get_cursor_from_index tl lines flags
      (cursor_index lines flags (col, row)) = (col, row) := by
  have hr : row < lines.length := by
    rcases List.get?_eq_some.mp hget with ⟨hb, _⟩
    rw [List.length_zip, hlen, min_self] at hb
    exact hb
  have hci : cursor_index lines flags (col, row) =
      idxOf (lines.zip flags) col row :=
    cursor_index_idxOf lines flags col row hr hlen
  have hle : idxOf (lines.zip flags) col row ≤ tl := by
    rw [htl]
    exact idxOf_le_segSum (lines.zip flags) col row lf hget hcol
  rw [hci]
  simp only [get_cursor_from_index]
  rw [boundary_of_le _ tl hle]
  by_cases hz : idxOf (lines.zip flags) col row = 0
  · have hcz : col = 0 ∧ ¬isLB lf.2 := by
      by_contra hcon
      have : 1 ≤ col ∨ isLB lf.2 := by
        rcases Nat.eq_zero_or_pos col with h | h
        · simp [h] at hcon
          exact Or.inr hcon
        · exact Or.inl h
      have := idxOf_pos (lines.zip flags) col row lf hget this
      omega
    have hrow0 : row = 0 := by
      rcases hguard with h | h | h
      · omega
      · exact h
      · exact absurd h hcz.2
    rw [hz]
    rw [if_pos (by norm_num)]
    rw [hcz.1, hrow0]
  · rw [if_neg (by omega), if_neg hne]
    rw [Int.toNat_natCast]
    have := getCursorLoop_B (lines.zip flags) 0 0 col row lf hget hcol hguard
    simpa using this

/-! ### Concrete instantiations of the external text measurer -/

/-- A concrete text measurer assigning width 1 to every character (and, on
whole tokens, the sum of the character widths). -/
def unitMeasure : List Char → Nat := List.length

/-- A concrete text measurer where `'a'` is five units wide and every other
character one unit, additive on tokens. -/
def heavyM : List Char → Nat :=
  fun s => (s.map (fun c => if c = 'a' then 5 else 1)).sum

/-- The base text of the incremental-reflow failing input: `"abcde\nxx"`. -/
def exText1 : List Char := ['a', 'b', 'c', 'd', 'e', '\n', 'x', 'x']

/-- The extended text `"abcde\nxxy"`: the previous text plus `"y"`. -/
def exText2 : List Char := ['a', 'b', 'c', 'd', 'e', '\n', 'x', 'x', 'y']

/-- A paragraph that wraps into three visual lines under `unitMeasure` and
width 3, followed by an explicit newline and a second paragraph:
`"aa bb cc\ndd"`. -/
def parText : List Char :=
  ['a', 'a', ' ', 'b', 'b', ' ', 'c', 'c', '\n', 'd', 'd']

/-! ### Claim theorems -/

/-- C3 counterexample: reconstructing with the spec's reading — a `'\n'`
inserted AFTER each `LINEBREAK`-flagged line — does not give back the input:
for `"ab\ncd"` in no-wrap mode the code flags the SECOND line, so the
after-insertion gives `"abcd\n"`. -/
theorem C3_counterexample :
    reconstructAfterSpec
        (split_smart unitMeasure 0 true false
          ['a', 'b', '\n', 'c', 'd'] 0).1
        (split_smart unitMeasure 0 true false
          ['a', 'b', '\n', 'c', 'd'] 0).2.1 ≠
      ['a', 'b', '\n', 'c', 'd'] := by decide

/-- C3 (amended): for every input text, both wrap settings and any
measurer, concatenating the lines of `_split_smart` with a `'\n'` inserted
immediately BEFORE each `LINEBREAK`-flagged line (the flag records the
newline preceding its line) reconstructs the original flat text exactly. -/
theorem C3_reconstruction (measure : List Char → Nat) (width : Int)
    (multiline do_wrap : Bool) (text : List Char) :
    reconstruct (split_smart measure width multiline do_wrap text 0).1
      (split_smart measure width multiline do_wrap text 0).2.1 = text :=
  (split_smart_model measure width multiline do_wrap text).2.1

/-- C4 counterexample: with wrapping disabled on `"ab\ncd"` the flag list is
`[0, LINEBREAK]`, not the claimed `[LINEBREAK, 0]`: the flag sits on the
line FOLLOWING the newline, so every line except the FIRST is flagged. -/
theorem C4_counterexample :
    (split_smart unitMeasure 0 true false
        ['a', 'b', '\n', 'c', 'd'] 0).2.1 ≠ [FL_IS_LINEBREAK, 0] := by
  decide

/-- C4 (amended): with wrapping disabled, `_split_smart` splits only on
`'\n'` (no line contains a newline and joining the lines with `'\n'`
restores the text) and flags each line except the FIRST with
`FL_IS_LINEBREAK`; in particular for `"ab\ncd"` it returns
`["ab", "cd"]` with flags `[0, LINEBREAK]`. -/
theorem C4_nowrap (measure : List Char → Nat) (width : Int)
    (multiline : Bool) (text : List Char) (φ : Nat) :
    (split_smart measure width multiline false text φ).1 = pySplitNl text ∧
    (∀ l ∈ (split_smart measure width multiline false text φ).1,
      '\n' ∉ l) ∧
    joinNl (split_smart measure width multiline false text φ).1 = text ∧
    (split_smart measure width multiline false text φ).2.1 =
      0 :: List.replicate
        ((split_smart measure width multiline false text φ).1.length - 1)
        FL_IS_LINEBREAK := by
  have hbr : split_smart measure width multiline false text φ =
      (pySplitNl text,
       0 :: List.replicate ((pySplitNl text).length - 1) FL_IS_LINEBREAK,
       []) := by
    rw [split_smart, if_pos (by simp)]
  rw [hbr]
  exact ⟨rfl, pySplitNl_no_nl text, joinNl_pySplitNl text, rfl⟩

/-- C4 witness: the general no-wrap theorem applied to `"ab\n"` and the
concrete member line `"ab"`. -/
theorem C4_nowrap_witness :
    '\n' ∉ (['a', 'b'] : List Char) ∧
    joinNl (split_smart unitMeasure 0 true false ['a', 'b', '\n'] 0).1 =
      ['a', 'b', '\n'] :=
  ⟨(C4_nowrap unitMeasure 0 true ['a', 'b', '\n'] 0).2.1 ['a', 'b']
      (by decide),
   (C4_nowrap unitMeasure 0 true ['a', 'b', '\n'] 0).2.2.1⟩

/-- C7: evaluating `replace_text` at text `"abcdef"`, `start_index = 4`,
`end_index = 2`, empty substring.  The code computes
`text[:4] + "" + text[4+2:] = "abcd"`, deleting `[4, 6)`; the claim (and
the function's own docstring) require deleting `[2, 4)`, which would give
`"abef"`. -/
theorem C7_replace_text_eval :
    replace_text ['a', 'b', 'c', 'd', 'e', 'f'] [] 4 2 =
      (['a', 'b', 'c', 'd'], true) ∧
    (['a', 'b', 'c', 'd'] : List Char) ≠ ['a', 'b', 'e', 'f'] := by decide

/-- C5: the incremental path of `_refresh_text` applied to the model of
`"abcde\nxx"` (all characters one unit wide, wrap width 2) with the new
text `"abcde\nxxy"` produces the line `"de"` — duplicating the `'d'`,
because `_split_smart` records `line_index = word_end_index - split_pos`
for word-split fragments instead of the fragment's end offset — while the
from-scratch reflow of the same text produces `"e"` there. -/
theorem C5_incremental_mismatch :
    (refresh_textinput unitMeasure 2 true true
        (refresh_property unitMeasure 2 true true exText1) exText2).lines =
      [['a', 'b'], ['c', 'd'], ['d', 'e'], ['x', 'x'], ['y']] ∧
    (refresh_property unitMeasure 2 true true exText2).lines =
      [['a', 'b'], ['c', 'd'], ['e'], ['x', 'x'], ['y']] ∧
    (refresh_textinput unitMeasure 2 true true
        (refresh_property unitMeasure 2 true true exText1) exText2).lines ≠
      (refresh_property unitMeasure 2 true true exText2).lines := by decide

/-- C6: on the paragraph `"aa bb cc"` wrapped into the three visual lines
`"aa ", "bb ", "cc"` (followed by `"\ndd"`), starting from flat index 4 in
the middle visual line, `_expand_range` returns `(3, 9)` — the start of the
middle line and an end INCLUDING the newline — instead of the claimed span
`(0, 8)` covering all three visual lines up to (not including) the
newline: `_expand_rows` consults a REVERSED copy of the flags list, so the
expansion stops or continues based on unrelated rows' flags. -/
theorem C6_expand_range_eval :
    expand_range 11 (split_smart unitMeasure 3 true true parText 0).1
        (split_smart unitMeasure 3 true true parText 0).2.1 4 4 = (3, 9) ∧
    ((3, 9) : Nat × Nat) ≠ (0, 8) := by decide

/-- C2 counterexample: on the no-wrap model of `"ab\ncd"` (lines
`["ab", "cd"]`, flags `[0, LINEBREAK]`) the cursor `(0, 1)` maps to flat
index 3, not the 2 the claim computes (`col +` preceding lengths `+` one
per preceding flagged row `= 0 + 2 + 0`): `cursor_index` DOES add one
character for the cursor's own row's `LINEBREAK` flag. -/
theorem C2_counterexample :
    cursor_index
        (split_smart unitMeasure 0 true false ['a', 'b', '\n', 'c', 'd'] 0).1
        (split_smart unitMeasure 0 true false ['a', 'b', '\n', 'c', 'd'] 0).2.1
        (0, 1) = 3 ∧ (3 : Nat) ≠ 2 := by decide

/-- C2 (amended): for every in-bounds cursor, `cursor_index` returns `col`
plus the sum over preceding rows of the row length plus one per
`LINEBREAK`-flagged row among rows `0..row-1`, PLUS one more when the
cursor's own row is `LINEBREAK`-flagged — correctly so, since in this code
the flag records the newline immediately preceding its row, which lies
before the cursor. -/
theorem C2_cursor_index_own_flag (lines : List (List Char))
    (flags : List Nat) (col row : Nat) (f : Nat)
    (hrow : row < lines.length) (hlen : flags.length = lines.length)
    (hf : flags.get? row = some f) :
    cursor_index lines flags (col, row) =
      col + segSum ((lines.zip flags).take row) + lbAdd f := by
  have hz := zip_get? lines flags row _ f (List.get?_eq_get hrow) hf
  have h1 := cursor_index_idxOf lines flags col row hrow hlen
  have h2 : col + segSum ((lines.zip flags).take row) + lbAdd f =
      idxOf (lines.zip flags) col row :=
    take_seg_idxOf (lines.zip flags) row col _ hz
  rw [h1, ← h2]

/-- C2 witness: the amended statement evaluated on the `"ab\ncd"` model at
cursor `(0, 1)`: `0 + 2 + 1 = 3`. -/
theorem C2_witness :
    cursor_index [['a', 'b'], ['c', 'd']] [0, 1] (0, 1) =
      0 + segSum (([['a', 'b'], ['c', 'd']].zip [0, 1]).take 1) + lbAdd 1 :=
  C2_cursor_index_own_flag [['a', 'b'], ['c', 'd']] [0, 1] 0 1 1
    (by decide) (by decide) (by decide)

/-- C10: `select_text` raises (without touching the selection state)
exactly when `end < start`; otherwise it clamps both indices independently
into `[0, text_len]` and marks the selection finished. -/
theorem C10_select_text (text_len : Nat) (σ : SelSt) (s e : Int) :
    (e < s → select_text text_len σ s e = (σ, true)) ∧
    (s ≤ e →
      select_text text_len σ s e =
        (⟨(boundary s 0 (text_len : Int)).toNat,
          (boundary e 0 (text_len : Int)).toNat, true⟩, false) ∧
      (boundary s 0 (text_len : Int)).toNat ≤ text_len ∧
      (boundary e 0 (text_len : Int)).toNat ≤ text_len) := by
  constructor
  · intro h
    rw [select_text, if_pos h]
  · intro h
    rw [select_text, if_neg (by omega)]
    refine ⟨rfl, ?_, ?_⟩ <;> simp [boundary] <;> omega

/-- C10 witness: a reversed range `(3, 1)` raises with the state
unchanged; an ordered out-of-range pair `(-2, 99)` is clamped to `(0, 5)`
and finished. -/
theorem C10_witness :
    select_text 5 ⟨0, 0, false⟩ 3 1 = (⟨0, 0, false⟩, true) ∧
    select_text 5 ⟨0, 0, false⟩ (-2) 99 = (⟨0, 5, true⟩, false) :=
  ⟨(C10_select_text 5 ⟨0, 0, false⟩ 3 1).1 (by decide),
   by
    have := ((C10_select_text 5 ⟨0, 0, false⟩ (-2) 99).2 (by decide)).1
    rw [this]
    decide⟩

/-- C1 counterexample: wrapping `"ab"` at width 1 (unit character widths)
yields the line model `["a", "b"]` with flags `[0, WORDBREAK]`; the
in-bounds cursor `(0, 1)` maps to flat index 1, which maps back to
`(1, 0)` — the equivalent position at the end of the previous row — so the
cursor round trip fails away from the buffer end. -/
theorem C1_counterexample :
    (split_smart unitMeasure 1 true true ['a', 'b'] 0).1 = [['a'], ['b']] ∧
    (split_smart unitMeasure 1 true true ['a', 'b'] 0).2.1 =
      [0, FL_IS_WORDBREAK] ∧
    get_cursor_from_index 2 (split_smart unitMeasure 1 true true ['a', 'b'] 0).1
        (split_smart unitMeasure 1 true true ['a', 'b'] 0).2.1
        ((cursor_index (split_smart unitMeasure 1 true true ['a', 'b'] 0).1
          (split_smart unitMeasure 1 true true ['a', 'b'] 0).2.1
          (0, 1) : Nat) : Int) ≠ (0, 1) := by decide

/-- C1 (amended): on every line model `_split_smart` computes from scratch,
index → cursor → index is the identity on all of `[0, len(text)]`, and
cursor → index → cursor is the identity for every in-bounds cursor that is
not at column 0 of a wrapped continuation row (that is, `col ≥ 1`, or
`row = 0`, or row `row` is `LINEBREAK`-flagged); at column 0 of a wrapped
continuation row the round trip instead returns the equivalent cursor at
the end of the previous visual row, as the counterexample shows. -/
theorem C1_roundtrip (measure : List Char → Nat) (width : Int)
    (multiline do_wrap : Bool) (text : List Char) :
    (∀ ix : Nat, ix ≤ text.length →
      cursor_index (split_smart measure width multiline do_wrap text 0).1
        (split_smart measure width multiline do_wrap text 0).2.1
        (get_cursor_from_index text.length
          (split_smart measure width multiline do_wrap text 0).1
          (split_smart measure width multiline do_wrap text 0).2.1
          (ix : Int)) = ix) ∧
    (∀ (col row : Nat) (lf : List Char × Nat),
      ((split_smart measure width multiline do_wrap text 0).1.zip
        (split_smart measure width multiline do_wrap text 0).2.1).get? row =
          some lf →
      col ≤ lf.1.length → (1 ≤ col ∨ row = 0 ∨ isLB lf.2) →
      get_cursor_from_index text.length
        (split_smart measure width multiline do_wrap text 0).1
        (split_smart measure width multiline do_wrap text 0).2.1
        ((cursor_index (split_smart measure width multiline do_wrap text 0).1
          (split_smart measure width multiline do_wrap text 0).2.1
          (col, row) : Nat) : Int) = (col, row)) := by
  obtain ⟨hlen, hrec, hne, hhead⟩ :=
    split_smart_model measure width multiline do_wrap text
  have hseg : text.length =
      segSum ((split_smart measure width multiline do_wrap text 0).1.zip
        (split_smart measure width multiline do_wrap text 0).2.1) := by
    conv_lhs => rw [← hrec]
    exact reconstruct_length _ _ hlen.symm
  have h0 : lbAdd
      ((split_smart measure width multiline do_wrap text 0).2.1.headD 0) =
        0 := by
    rw [hhead]
    decide
  constructor
  · intro ix hix
    exact roundA_model _ _ hlen hne h0 text.length hseg ix hix
  · intro col row lf hget hcol hg
    exact roundB_model _ _ hlen hne h0 text.length hseg col row lf hget
      hcol hg

/-- C1 witness: both round-trip directions of the amended statement on the
wrapped model of `"ab"` (width 1): index 1 survives the round trip, and so
does the cursor `(1, 1)`. -/
theorem C1_witness :
    cursor_index (split_smart unitMeasure 1 true true ['a', 'b'] 0).1
        (split_smart unitMeasure 1 true true ['a', 'b'] 0).2.1
        (get_cursor_from_index 2
          (split_smart unitMeasure 1 true true ['a', 'b'] 0).1
          (split_smart unitMeasure 1 true true ['a', 'b'] 0).2.1
          ((1 : Nat) : Int)) = 1 ∧
    get_cursor_from_index 2 (split_smart unitMeasure 1 true true ['a', 'b'] 0).1
        (split_smart unitMeasure 1 true true ['a', 'b'] 0).2.1
        ((cursor_index (split_smart unitMeasure 1 true true ['a', 'b'] 0).1
          (split_smart unitMeasure 1 true true ['a', 'b'] 0).2.1
          (1, 1) : Nat) : Int) = (1, 1) :=
  ⟨(C1_roundtrip unitMeasure 1 true true ['a', 'b']).1 1 (by decide),
   (C1_roundtrip unitMeasure 1 true true ['a', 'b']).2 1 1 (['b'], 2)
     (by decide) (by decide) (by decide)⟩

/-- The committed-cursor candidate of `_set_cursor` always satisfies
`row < len(lines)` and `col ≤ len(lines[row])` when `_lines` is non-empty
(on an empty model the source returns early without committing). -/
theorem set_cursor_inbounds (lines : List (List Char)) (pos : Int × Int)
    (h : lines ≠ []) :
    ∃ cc cr, set_cursor lines pos = some (cc, cr) ∧ cr < lines.length ∧
      cc ≤ (lines.getD cr []).length := by
  rw [set_cursor, if_neg h]
  have hl : 1 ≤ lines.length := by
    cases lines with
    | nil => exact absurd rfl h
    | cons x xs => simp
  refine ⟨_, _, rfl, ?_, ?_⟩
  · simp only [boundary]
    omega
  · simp only [boundary]
    omega

/-- The cursor returned by `get_cursor_from_index` is in bounds for every
flat index (negative or past the end included), on any model with parallel
flags whose rows sum to the clamping length. -/
theorem get_cursor_inbounds_model (lines : List (List Char))
    (flags : List Nat) (hlen : flags.length = lines.length)
    (hne : lines ≠ []) (tl : Nat)
    (htl : tl = segSum (lines.zip flags)) (ix : Int) :
    ∃ l, lines.get? (get_cursor_from_index tl lines flags ix).2 = some l ∧
      (get_cursor_from_index tl lines flags ix).1 ≤ l.length := by
  simp only [get_cursor_from_index]
  by_cases hz : boundary ix 0 (tl : Int) ≤ 0
  · rw [if_pos hz]
    cases lines with
    | nil => exact absurd rfl hne
    | cons l ls => exact ⟨l, rfl, Nat.zero_le _⟩
  · rw [if_neg hz, if_neg hne]
    have hb1 : 0 ≤ boundary ix 0 (tl : Int) := by
      simp only [boundary]
      omega
    have hb2 : boundary ix 0 (tl : Int) ≤ (tl : Int) := by
      simp only [boundary]
      omega
    rcases getCursorLoop_A (lines.zip flags) 0
      (boundary ix 0 (tl : Int)).toNat 0 (by omega) (by rw [← htl]; omega)
      with ⟨col, r, lf, hget, heq, hcol, hidx⟩
    rw [heq]
    have hrz : r < (lines.zip flags).length := by
      rcases List.get?_eq_some.mp hget with ⟨hb, _⟩
      exact hb
    have hrl : r < lines.length := by
      rw [List.length_zip, hlen, min_self] at hrz
      exact hrz
    have hrf : r < flags.length := by omega
    have hz2 := zip_get? lines flags r _ _ (List.get?_eq_get hrl)
      (List.get?_eq_get hrf)
    rw [hget] at hz2
    injection hz2 with hz2
    refine ⟨lf.1, ?_, ?_⟩
    · simp only [Nat.zero_add]
      show lines.get? r = some lf.1
      rw [hz2]
      exact List.get?_eq_get hrl
    · exact hcol

/-- C9: out-of-range tolerance.  On every from-scratch line model,
`get_cursor_from_index` (which clamps its flat index into
`[0, len(text)]`) returns an in-bounds cursor for EVERY integer index; and
for every `(col, row)` pair, `_set_cursor` on a non-empty line model
commits a cursor with `row` clamped into `[0, len(lines) - 1]` and `col`
into `[0, len(lines[row])]`. -/
theorem C9_out_of_range (measure : List Char → Nat) (width : Int)
    (multiline do_wrap : Bool) (text : List Char) :
    (∀ ix : Int,
      ∃ l, (split_smart measure width multiline do_wrap text 0).1.get?
          (get_cursor_from_index text.length
            (split_smart measure width multiline do_wrap text 0).1
            (split_smart measure width multiline do_wrap text 0).2.1 ix).2 =
          some l ∧
        (get_cursor_from_index text.length
          (split_smart measure width multiline do_wrap text 0).1
          (split_smart measure width multiline do_wrap text 0).2.1 ix).1 ≤
          l.length) ∧
    (∀ (lines : List (List Char)) (pos : Int × Int), lines ≠ [] →
      ∃ cc cr, set_cursor lines pos = some (cc, cr) ∧ cr < lines.length ∧
        cc ≤ (lines.getD cr []).length) := by
  obtain ⟨hlen, hrec, hne, _⟩ :=
    split_smart_model measure width multiline do_wrap text
  have hseg : text.length =
      segSum ((split_smart measure width multiline do_wrap text 0).1.zip
        (split_smart measure width multiline do_wrap text 0).2.1) := by
    conv_lhs => rw [← hrec]
    exact reconstruct_length _ _ hlen.symm
  exact ⟨fun ix => get_cursor_inbounds_model _ _ hlen hne text.length hseg ix,
    fun lines pos h => set_cursor_inbounds lines pos h⟩

/-- C9 witness: the theorem applied to `"a\nb"` in no-wrap mode at the
out-of-range flat index `-7`, and to `_set_cursor` on a singleton model at
the out-of-range pair `(5, -3)`. -/
theorem C9_witness :
    (∃ l, (split_smart unitMeasure 0 true false ['a', '\n', 'b'] 0).1.get?
        (get_cursor_from_index 3
          (split_smart unitMeasure 0 true false ['a', '\n', 'b'] 0).1
          (split_smart unitMeasure 0 true false ['a', '\n', 'b'] 0).2.1
          (-7)).2 = some l ∧
      (get_cursor_from_index 3
        (split_smart unitMeasure 0 true false ['a', '\n', 'b'] 0).1
        (split_smart unitMeasure 0 true false ['a', '\n', 'b'] 0).2.1
        (-7)).1 ≤ l.length) ∧
    (∃ cc cr, set_cursor [['a']] (5, -3) = some (cc, cr) ∧ cr < 1 ∧
      cc ≤ ([['a']].getD cr []).length) :=
  ⟨(C9_out_of_range unitMeasure 0 true false ['a', '\n', 'b']).1 (-7),
   (C9_out_of_range unitMeasure 0 true false ['a', '\n', 'b']).2 [['a']]
     (5, -3) (by decide)⟩

/-- Every line the word-split loop emits beyond the incoming ones has
cumulative per-character measured width at most `width`; and after the
loop, either the pending flag is `FL_IS_WORDBREAK` (at least one fragment
was cut) or nothing was emitted at all. -/
theorem splitLoop_fragments (measure : List Char → Nat) (width : Int)
    (hw : (1 : Int) ≤ width) :
    ∀ (fuel : Nat) (word : List Char) (st : WrapSt) (wend : Nat) (w : Int),
      (∀ l ∈ (splitLoop measure width fuel st word wend w).lines,
        l ∈ st.lines ∨ (charSum measure l : Int) ≤ width) ∧
      ((splitLoop measure width fuel st word wend w).flags =
          FL_IS_WORDBREAK ∨
        ((splitLoop measure width fuel st word wend w).lines = st.lines ∧
         (splitLoop measure width fuel st word wend w).flags = st.flags)) := by
  intro fuel
  induction fuel with
  | zero =>
    intro word st wend w
    rw [splitLoop]
    exact ⟨fun l hl => Or.inl hl, Or.inr ⟨rfl, rfl⟩⟩
  | succ n ih =>
    intro word st wend w
    rw [splitLoop]
    split
    · split
      · exact ⟨fun l hl => Or.inl hl, Or.inr ⟨rfl, rfl⟩⟩
      · rcases ih (word.drop (findSplit measure width word).1)
          { st with
            lines := st.lines ++
              [word.take (findSplit measure width word).1]
            lines_flags := st.lines_flags ++ [st.flags]
            lines_idx :=
              st.lines_idx ++ [wend - (findSplit measure width word).1]
            flags := FL_IS_WORDBREAK
            line_index := wend - (findSplit measure width word).1 }
          wend (w - (findSplit measure width word).2) with ⟨c1, c2⟩
        constructor
        · intro l hl
          rcases c1 l hl with hmem | hsum
          · simp only [List.mem_append, List.mem_singleton] at hmem
            rcases hmem with h | h
            · exact Or.inl h
            · subst h
              refine Or.inr ?_
              rw [findSplit_take measure width word]
              exact findSplit_snd_le measure width word (by omega)
          · exact Or.inr hsum
        · rcases c2 with h | ⟨_, hf⟩
          · exact Or.inl h
          · exact Or.inl hf
    · exact ⟨fun l hl => Or.inl hl, Or.inr ⟨rfl, rfl⟩⟩

/-- C8 counterexample: with character widths `'a' ↦ 5`, `'b' ↦ 1` and
width constraint 2, the token `"ab"` has measured width 6 > 2, yet
`_split_smart` emits the single line `"ab"` — a fragment of length 2 whose
measured width exceeds the constraint: when even the FIRST character does
not fit, the loop gives up and emits the entire remainder unsplit, not
merely a one-character overflow. -/
theorem C8_counterexample :
    ¬ (∀ l ∈ (split_smart heavyM 2 true true ['a', 'b'] 0).1,
        (heavyM l : Int) ≤ 2 ∨ l.length = 1) := by decide

/-- C8 (amended): whenever the wrap path runs the word-split loop
(`width ≥ 1`), every fragment line it cuts off has cumulative
per-character measured width at most `width` (the whole-remainder
emission on give-up goes to the pending `line`, not to the output lines),
and the pending flag after cutting at least one fragment is
`FL_IS_WORDBREAK`, marking the CONTINUATION of the broken word. -/
theorem C8_wrap_boundary (measure : List Char → Nat) (width : Int)
    (fuel : Nat) (word : List Char) (st : WrapSt) (wend : Nat) (w : Int)
    (hw : (1 : Int) ≤ width) :
    (∀ l ∈ (splitLoop measure width fuel st word wend w).lines,
      l ∈ st.lines ∨ (charSum measure l : Int) ≤ width) ∧
    ((splitLoop measure width fuel st word wend w).flags =
        FL_IS_WORDBREAK ∨
      ((splitLoop measure width fuel st word wend w).lines = st.lines ∧
       (splitLoop measure width fuel st word wend w).flags = st.flags)) :=
  splitLoop_fragments measure width hw fuel word st wend w

/-- C8 witness: splitting `"ab"` (unit widths) at width 1 from the empty
state emits the fragment `"a"`, whose cumulative width is within the
constraint. -/
theorem C8_witness :
    (['a'] : List Char) ∈ (⟨0, 0, [], 0, [], [], []⟩ : WrapSt).lines ∨
      (charSum unitMeasure ['a'] : Int) ≤ 1 :=
  (C8_wrap_boundary unitMeasure 1 2 ['a', 'b']
    (⟨0, 0, [], 0, [], [], []⟩ : WrapSt) 2 2 (by decide)).1 ['a'] (by decide)

end KivyTI
